import Mathlib

/-!
Verification of the FSM transition-table analyzer (mig_state_study.py).

The analyzer takes a transition table `all_arcs : (current, target) ↦ step`
over a closed set of states (strings, with the sentinel "ERROR"), derives
the blocked set and the one-hop graph (`fsm_arcs`), resolves canonical
multi-hop paths by repeated table lookups, cross-checks them against all
shortest paths in the derived graph, computes error-unwind routes, and
diffs an externally supplied arc set against the derived one.

States are strings as in the source; the table is an association list
standing for the Python dict.  Python's set values are modelled as
`Finset`, dict lookups as `Option`-valued association-list lookup, and
failures (KeyError, AssertionError, NetworkXNoPath, and divergence of the
unguarded resolution loop) as an `Except` error value.
-/

abbrev St := String

abbrev Table := List ((St × St) × St)

/-- Association-list lookup keyed by a state pair (the Python dict access). -/
def alookup {α : Type} : List ((St × St) × α) → St × St → Option α
  | [], _ => none
  | e :: l, p => if e.1 = p then some e.2 else alookup l p

/-- `all_states`: the set of states occurring as the current state of some
table entry (line 42 of the source). -/
def all_states (t : Table) : Finset St :=
  (t.map (fun e => e.1.1)).toFinset

/-- `all_state_pairs`: all ordered pairs of distinct states (line 43). -/
def all_state_pairs (t : Table) : Finset (St × St) :=
  (all_states t ×ˢ all_states t).filter (fun p => p.1 ≠ p.2)

/-- `blocked_transitions`: pairs whose table value is the ERROR sentinel
(line 45). -/
def blocked_transitions (t : Table) : Finset (St × St) :=
  (all_state_pairs t).filter (fun p => alookup t p = some "ERROR")

/-- `fsm_arcs`: the one-hop graph, one edge `(c, table[c,n])` per
non-blocked pair (line 47).  Under a complete table the `getD` default is
never taken. -/
def fsm_arcs (t : Table) : Finset (St × St) :=
  ((all_state_pairs t).filter (fun p => p ∉ blocked_transitions t)).image
    (fun p => (p.1, (alookup t p).getD "ERROR"))

/-- Lexicographic comparison of character lists (standard string order,
written out so it reduces in the kernel). -/
def strLtb : List Char → List Char → Bool
  | [], [] => false
  | [], _ :: _ => true
  | _ :: _, [] => false
  | a :: as, b :: bs =>
    if a < b then true
    else if b < a then false
    else strLtb as bs

theorem strLtb_irrefl : ∀ l, strLtb l l = false := by
  intro l
  induction l with
  | nil => rfl
  | cons a as ih => simp [strLtb, lt_irrefl, ih]

theorem strLtb_asymm : ∀ {l1 l2}, strLtb l1 l2 = true → strLtb l2 l1 = false := by
  intro l1
  induction l1 with
  | nil =>
    intro l2 h
    cases l2 with
    | nil => exact absurd h (by simp [strLtb])
    | cons b bs => rfl
  | cons a as ih =>
    intro l2 h
    cases l2 with
    | nil => exact absurd h (by simp [strLtb])
    | cons b bs =>
      simp only [strLtb] at h ⊢
      by_cases hab : a < b
      · rw [if_neg (asymm hab), if_pos hab]
      · rw [if_neg hab] at h
        by_cases hba : b < a
        · rw [if_pos hba] at h; exact absurd h (by simp)
        · rw [if_neg hba] at h
          rw [if_neg hba, if_neg hab]
          exact ih h

theorem strLtb_trans : ∀ {l1 l2 l3}, strLtb l1 l2 = true → strLtb l2 l3 = true →
    strLtb l1 l3 = true := by
  intro l1
  induction l1 with
  | nil =>
    intro l2 l3 h12 h23
    cases l2 with
    | nil => exact h23
    | cons b bs =>
      cases l3 with
      | nil => exact absurd h23 (by simp [strLtb])
      | cons c cs => rfl
  | cons a as ih =>
    intro l2 l3 h12 h23
    cases l2 with
    | nil => exact absurd h12 (by simp [strLtb])
    | cons b bs =>
      cases l3 with
      | nil => exact absurd h23 (by simp [strLtb])
      | cons c cs =>
        simp only [strLtb] at h12 h23 ⊢
        by_cases hab : a < b <;> by_cases hbc : b < c
        · rw [if_pos (lt_trans hab hbc)]
        · rw [if_neg hbc] at h23
          by_cases hcb : c < b
          · rw [if_pos hcb] at h23; exact absurd h23 (by simp)
          · have hbc' : b = c := le_antisymm (not_lt.mp hcb) (not_lt.mp hbc)
            rw [if_pos (hbc' ▸ hab)]
        · rw [if_neg hab] at h12
          by_cases hba : b < a
          · rw [if_pos hba] at h12; exact absurd h12 (by simp)
          · have hab' : a = b := le_antisymm (not_lt.mp hba) (not_lt.mp hab)
            rw [if_pos (hab' ▸ hbc)]
        · rw [if_neg hab] at h12
          rw [if_neg hbc] at h23
          by_cases hba : b < a
          · rw [if_pos hba] at h12; exact absurd h12 (by simp)
          · by_cases hcb : c < b
            · rw [if_pos hcb] at h23; exact absurd h23 (by simp)
            · rw [if_neg hba] at h12
              rw [if_neg hcb] at h23
              have hab' : a = b := le_antisymm (not_lt.mp hba) (not_lt.mp hab)
              have hac : ¬ a < c := hab' ▸ hbc
              have hca : ¬ c < a := by
                have : c = b := le_antisymm (not_lt.mp hbc) (not_lt.mp hcb)
                rw [this, hab']
                exact lt_irrefl b
              rw [if_neg hac, if_neg hca]
              exact ih h12 h23

theorem strLtb_eq_of_not : ∀ {l1 l2}, strLtb l1 l2 = false → strLtb l2 l1 = false →
    l1 = l2 := by
  intro l1
  induction l1 with
  | nil =>
    intro l2 h12 _
    cases l2 with
    | nil => rfl
    | cons b bs => exact absurd h12 (by simp [strLtb])
  | cons a as ih =>
    intro l2 h12 h21
    cases l2 with
    | nil => exact absurd h21 (by simp [strLtb])
    | cons b bs =>
      simp only [strLtb] at h12 h21
      by_cases hab : a < b
      · rw [if_pos hab] at h12; exact absurd h12 (by simp)
      · by_cases hba : b < a
        · rw [if_pos hba] at h21; exact absurd h21 (by simp)
        · rw [if_neg hab, if_neg hba] at h12
          rw [if_neg hba, if_neg hab] at h21
          rw [le_antisymm (not_lt.mp hba) (not_lt.mp hab), ih h12 h21]

/-- Lexicographic order on state pairs (Python's tuple `sorted`). -/
def pairLe (p q : St × St) : Prop :=
  strLtb p.1.data q.1.data = true ∨
  (p.1 = q.1 ∧ (strLtb p.2.data q.2.data = true ∨ p.2 = q.2))

instance : DecidableRel pairLe := fun p q => by
  unfold pairLe; infer_instance

instance : IsTrans (St × St) pairLe := by
  constructor
  intro a b c hab hbc
  rcases hab with h1 | ⟨h1, h1'⟩ <;> rcases hbc with h2 | ⟨h2, h2'⟩
  · exact Or.inl (strLtb_trans h1 h2)
  · exact Or.inl (h2 ▸ h1)
  · exact Or.inl (h1 ▸ h2)
  · refine Or.inr ⟨h1.trans h2, ?_⟩
    rcases h1' with h1' | h1' <;> rcases h2' with h2' | h2'
    · exact Or.inl (strLtb_trans h1' h2')
    · exact Or.inl (h2' ▸ h1')
    · exact Or.inl (h1' ▸ h2')
    · exact Or.inr (h1'.trans h2')

instance : IsAntisymm (St × St) pairLe := by
  constructor
  intro a b hab hba
  rcases hab with h1 | ⟨h1, h1'⟩ <;> rcases hba with h2 | ⟨h2, h2'⟩
  · rw [strLtb_asymm h1] at h2; exact absurd h2 (by simp)
  · rw [h2] at h1; rw [strLtb_irrefl] at h1; exact absurd h1 (by simp)
  · rw [h1] at h2; rw [strLtb_irrefl] at h2; exact absurd h2 (by simp)
  · refine Prod.ext h1 ?_
    rcases h1' with h1' | h1' <;> rcases h2' with h2' | h2'
    · rw [strLtb_asymm h1'] at h2'; exact absurd h2' (by simp)
    · exact h2'.symm
    · exact h1'
    · exact h1'

instance : IsTotal (St × St) pairLe := by
  constructor
  intro a b
  by_cases h1 : strLtb a.1.data b.1.data = true
  · exact Or.inl (Or.inl h1)
  · by_cases h2 : strLtb b.1.data a.1.data = true
    · exact Or.inr (Or.inl h2)
    · have he : a.1 = b.1 := String.ext
        (strLtb_eq_of_not (Bool.not_eq_true _ ▸ h1) (Bool.not_eq_true _ ▸ h2))
      by_cases h3 : strLtb a.2.data b.2.data = true
      · exact Or.inl (Or.inr ⟨he, Or.inl h3⟩)
      · by_cases h4 : strLtb b.2.data a.2.data = true
        · exact Or.inr (Or.inr ⟨he.symm, Or.inl h4⟩)
        · have he2 : a.2 = b.2 := String.ext
            (strLtb_eq_of_not (Bool.not_eq_true _ ▸ h3) (Bool.not_eq_true _ ▸ h4))
          exact Or.inl (Or.inr ⟨he, Or.inr he2⟩)

/-- Computable enumeration of a finite set of pairs in lexicographic
order (Python's `sorted` over a set). -/
def sortedPairs (s : Finset (St × St)) : List (St × St) :=
  Quot.liftOn s.val (fun l => List.insertionSort pairLe l)
    (fun l1 l2 h =>
      List.eq_of_perm_of_sorted
        ((List.perm_insertionSort pairLe l1).trans
          (h.trans (List.perm_insertionSort pairLe l2).symm))
        (List.sorted_insertionSort pairLe l1)
        (List.sorted_insertionSort pairLe l2))

theorem mem_sortedPairs {s : Finset (St × St)} {p : St × St} :
    p ∈ sortedPairs s ↔ p ∈ s := by
  rcases s with ⟨val, nd⟩
  induction val using Quot.inductionOn with
  | h l =>
    show p ∈ List.insertionSort pairLe l ↔ _
    rw [List.Perm.mem_iff (List.perm_insertionSort pairLe l)]
    rfl

theorem sortedPairs_nodup (s : Finset (St × St)) : (sortedPairs s).Nodup := by
  rcases s with ⟨val, nd⟩
  induction val using Quot.inductionOn with
  | h l =>
    exact (List.perm_insertionSort pairLe l).nodup_iff.mpr nd

/-- Totality of the table over all ordered pairs of distinct states
(the completeness assert at lines 51-52). -/
def complete (t : Table) : Prop :=
  ∀ p ∈ all_state_pairs t, (alookup t p).isSome = true

instance (t : Table) : Decidable (complete t) :=
  inferInstanceAs (Decidable (∀ p ∈ all_state_pairs t, (alookup t p).isSome = true))

/-- Failure modes of the analysis: a missing table entry (Python KeyError
or the completeness assert, the spec's IncompleteTableError), the
mid-walk ERROR assert at line 60 (RoutingBlockedError), divergence of the
resolution loop on a repeated state (RoutingCycleError), an absent route
in the shortest-path query (NetworkXNoPath), and the canonical-path assert
at line 99 (RoutingInconsistencyError). -/
inductive AErr where
  | incompleteTable
  | routingBlocked
  | routingCycle
  | noPath
  | inconsistency
deriving DecidableEq

deriving instance DecidableEq for Except

/-- One step of the resolution loop at lines 57-60.  The accumulator holds
the path reversed (head = last element appended).  Appending the looked-up
state, then asserting ERROR absent, then testing the loop condition,
mirrors the source's order.  A repeated state makes the source loop
forever; that divergence is totalized as `routingCycle`. -/
def walkStep (t : Table) (n : St) : Nat → List St → Except AErr (List St)
  | 0, _ => .error .routingCycle
  | _ + 1, [] => .error .routingCycle
  | fuel + 1, last :: rest =>
    match alookup t (last, n) with
    | none => .error .incompleteTable
    | some s =>
      if s = "ERROR" ∨ "ERROR" ∈ last :: rest then .error .routingBlocked
      else if s = n then .ok ((s :: last :: rest).reverse)
      else if s ∈ last :: rest then .error .routingCycle
      else walkStep t n fuel (s :: last :: rest)

/-- The resolution loop for one pair (lines 57-60): start at `[c]`, append
`table[last, n]` until the last element equals `n`. -/
def resolvePath (t : Table) (p : St × St) : Except AErr (List St) :=
  if p.1 = p.2 then .ok [p.1] else walkStep t p.2 (t.length + 2) [p.1]

/-- Error-propagating map over a list (Python's comprehension/loop whose
body may raise). -/
def exMapM {α β : Type} (f : α → Except AErr β) : List α → Except AErr (List β)
  | [] => .ok []
  | a :: l =>
    match f a with
    | .error e => .error e
    | .ok b =>
      match exMapM f l with
      | .error e => .error e
      | .ok bs => .ok (b :: bs)

/-- The blocked-set computation (lines 45-46) with the dict lookups made
explicit: a missing pair raises before the value test. -/
def blockedE (t : Table) : Except AErr (Finset (St × St)) :=
  (exMapM (fun p =>
      match alookup t p with
      | none => .error .incompleteTable
      | some v => .ok (p, v)) (sortedPairs (all_state_pairs t))).map
    (fun l => ((l.filter (fun e => decide (e.2 = "ERROR"))).map Prod.fst).toFinset)

/-- The one-hop-graph computation (lines 47-48) with explicit lookups. -/
def fsmArcsE (t : Table) (bl : Finset (St × St)) : Except AErr (Finset (St × St)) :=
  (exMapM (fun p =>
      match alookup t p with
      | none => .error .incompleteTable
      | some v => .ok (p.1, v))
      ((sortedPairs (all_state_pairs t)).filter (fun p => decide (p ∉ bl)))).map
    (fun l => l.toFinset)

/-- The pairs resolved by the loop at line 56:
`all_state_pairs - fsm_arcs - blocked_transitions`. -/
def combination_pairs (t : Table) : Finset (St × St) :=
  (all_state_pairs t \ fsm_arcs t) \ blocked_transitions t

/-- `combination_paths` (lines 55-61): each combination pair mapped to its
resolved path; any resolution failure aborts. -/
def combinationPathsE (t : Table) (arcs bl : Finset (St × St)) :
    Except AErr (List ((St × St) × List St)) :=
  exMapM (fun p => (resolvePath t p).map (fun q => (p, q)))
    (sortedPairs ((all_state_pairs t \ arcs) \ bl))

/-- The direct entries added to `all_paths` at lines 64-66: every pair in
`fsm_arcs - blocked_transitions` is mapped to the two-state path. -/
def directPathsList (arcs bl : Finset (St × St)) : List ((St × St) × List St) :=
  (sortedPairs (arcs \ bl)).map (fun p => (p, [p.1, p.2]))

/-- The classification a pair receives from the analyzer: members of
`blocked_transitions` are excluded everywhere; pairs of
`fsm_arcs - blocked_transitions` get the trivial two-state path (line 65);
the remainder (line 56) are walked through the table. -/
inductive Classification where
  | blocked
  | direct
  | combination
deriving DecidableEq

def classify (t : Table) (p : St × St) : Classification :=
  if p ∈ blocked_transitions t then .blocked
  else if p ∈ fsm_arcs t then .direct
  else .combination

/-- The classification rule as the spec states it: direct when the table
value is the pair's own target. -/
def specClassify (t : Table) (p : St × St) : Classification :=
  if alookup t p = some "ERROR" then .blocked
  else if alookup t p = some p.2 then .direct
  else .combination

/-- Outcome of the unwind lookup for one intermediate state
(lines 104-109): either the canonical path back to the origin or the
explicit ERROR marking. -/
inductive UnwindResult where
  | path (p : List St)
  | unrecoverable
deriving DecidableEq

/-- The unwind lookup for one intermediate state (lines 105-109): the
canonical path from `err` back to `origin` when the all-paths dict has
one, else the explicit unrecoverable marking. -/
def unwindLookup (ap : List ((St × St) × List St)) (origin err : St) :
    UnwindResult :=
  match alookup ap (err, origin) with
  | some q => UnwindResult.path q
  | none => UnwindResult.unrecoverable

/-- The error unwind study (lines 101-109): for each combination path and
each of its intermediate states, look up the canonical path from that
state back to the path's origin. -/
def unwindStudy (cp ap : List ((St × St) × List St)) :
    List (List St × List (St × UnwindResult)) :=
  cp.map (fun e =>
    (e.2, ((e.2.drop 1).dropLast).map (fun err =>
      (err, unwindLookup ap e.2.headI err))))

/-- Nodes of the derived graph (the vertex set of the networkx DiGraph
built at line 87). -/
def nodesOf (g : Finset (St × St)) : Finset St :=
  g.image Prod.fst ∪ g.image Prod.snd

/-- Depth-first enumeration of the simple paths from `c` to `n` avoiding
`visited`, the model of networkx `all_shortest_paths`'s search space. -/
def simplePathsAux (edges : List (St × St)) (n : St) :
    Nat → St → List St → List (List St)
  | fuel, c, visited =>
    if c = n then [[n]]
    else
      match fuel with
      | 0 => []
      | fuel + 1 =>
        (edges.filter (fun e => decide (e.1 = c ∧ e.2 ∉ visited))).flatMap
          (fun e => (simplePathsAux edges n fuel e.2 (e.2 :: visited)).map
            (fun q => c :: q))

/-- All simple paths from `c` to `n` in the graph `g`. -/
def allSimplePaths (g : Finset (St × St)) (c n : St) : List (List St) :=
  simplePathsAux (sortedPairs g) n ((nodesOf g).card + 1) c [c]

/-- The minimum-length paths from `c` to `n`, the model of the list
produced by networkx `all_shortest_paths` at lines 89-91. -/
def shortestPaths (g : Finset (St × St)) (c n : St) : List (List St) :=
  (allSimplePaths g c n).filter
    (fun p => decide (∀ q ∈ allSimplePaths g c n, p.length ≤ q.length))

/-- A walk in `g` from `c` to `n`: nonempty, every consecutive pair an
edge. -/
def isWalkFromTo (g : Finset (St × St)) (p : List St) (c n : St) : Prop :=
  p.head? = some c ∧ p.getLast? = some n ∧ List.Chain' (fun a b => (a, b) ∈ g) p

/-- Executable edge-chain test (kernel-reducible decidability for
`isWalkFromTo`). -/
def chainb (g : Finset (St × St)) : List St → Bool
  | [] => true
  | [_] => true
  | a :: b :: l => decide ((a, b) ∈ g) && chainb g (b :: l)

theorem chainb_iff (g : Finset (St × St)) :
    ∀ l, chainb g l = true ↔ List.Chain' (fun a b => (a, b) ∈ g) l := by
  intro l
  induction l with
  | nil => simp [chainb]
  | cons a l ih =>
    cases l with
    | nil => simp [chainb]
    | cons b l' =>
      rw [List.chain'_cons, ← ih]
      simp [chainb]

instance (g : Finset (St × St)) (p : List St) (c n : St) :
    Decidable (isWalkFromTo g p c n) :=
  decidable_of_iff
    (p.head? = some c ∧ p.getLast? = some n ∧ chainb g p = true)
    (by unfold isWalkFromTo; rw [chainb_iff])

/-- A minimum-length walk from `c` to `n` in `g`. -/
def isShortestWalk (g : Finset (St × St)) (c n : St) (p : List St) : Prop :=
  isWalkFromTo g p c n ∧ ∀ q, isWalkFromTo g q c n → p.length ≤ q.length

/-- An ambiguity finding (lines 92-97): the pair, the full tied
shortest-path set, and the tied paths flagged `[selected]` (those equal to
the pair's combination path). -/
structure Finding where
  pair : St × St
  tied : List (List St)
  flagged : List (List St)
deriving DecidableEq

/-- The per-pair consistency check (lines 88-99): raise if no route
exists, report an ambiguity finding on a tie, otherwise assert the unique
shortest path equals the canonical path. -/
def checkPair (g : Finset (St × St)) (ap cp : List ((St × St) × List St))
    (p : St × St) : Except AErr (Option Finding) :=
  if (shortestPaths g p.1 p.2).isEmpty then .error .noPath
  else if (shortestPaths g p.1 p.2).length = 1 then
    if alookup ap p = some (shortestPaths g p.1 p.2).headI then .ok none
    else .error .inconsistency
  else .ok (some ⟨p, shortestPaths g p.1 p.2,
    (shortestPaths g p.1 p.2).filter (fun q => decide (alookup cp p = some q))⟩)

/-- The consistency-checker loop over the non-blocked pairs (line 88),
aborting at the first failure and collecting the ambiguity findings. -/
def runChecker (g : Finset (St × St)) (ap cp : List ((St × St) × List St))
    (ps : List (St × St)) : Except AErr (List Finding) :=
  (exMapM (checkPair g ap cp) ps).map (fun l => l.filterMap id)

/-- The structured output of one analysis run. -/
structure Report where
  arcs : Finset (St × St)
  blocked : Finset (St × St)
  allPaths : List ((St × St) × List St)
  findings : List Finding
  unwind : List (List St × List (St × UnwindResult))

/-- The whole analysis pass in source order: blocked set, one-hop graph,
completeness assert, canonical paths, consistency check, unwind study. -/
def analyze (t : Table) : Except AErr Report := do
  let bl ← blockedE t
  let arcs ← fsmArcsE t bl
  let _ ← if complete t then Except.ok () else Except.error AErr.incompleteTable
  let cp ← combinationPathsE t arcs bl
  let ap := cp ++ directPathsList arcs bl
  let fs ← runChecker arcs ap cp (sortedPairs (all_state_pairs t \ bl))
  Except.ok ⟨arcs, bl, ap, fs, unwindStudy cp ap⟩

/-- The conformance diff of an externally supplied arc set (line 125). -/
def mlx5_extra_arcs (t : Table) (mlx5_arcs : Finset (St × St)) : Finset (St × St) :=
  mlx5_arcs \ fsm_arcs t

/-- The conformance diff of an externally supplied arc set (line 126). -/
def mlx5_missing_arcs (t : Table) (mlx5_arcs : Finset (St × St)) : Finset (St × St) :=
  fsm_arcs t \ mlx5_arcs

/-- Extract the payload of a successful run (used to state concrete-run
facts without writing out the value). -/
def okD {α : Type} (e : Except AErr α) (d : α) : α :=
  match e with
  | .ok a => a
  | .error _ => d

/-- The worked example of the spec (section 8): three states, two
combination pairs, no blocked pairs, no ties. -/
def exS8 : Table :=
  [(("A", "B"), "B"), (("A", "C"), "B"), (("B", "C"), "C"),
   (("B", "A"), "A"), (("C", "A"), "B"), (("C", "B"), "B")]

/-- A complete three-state table on which the one-hop graph contains the
edge (A, B) although table[A,B] = C: each of the two pairs (A,B), (A,C)
contributes the other's target as its first hop. -/
def exC1 : Table :=
  [(("A", "B"), "C"), (("A", "C"), "B"), (("B", "A"), "A"),
   (("B", "C"), "C"), (("C", "A"), "A"), (("C", "B"), "B")]

/-- exS8 with the entry for (C, B) removed: an incomplete table. -/
def exInc : Table :=
  [(("A", "B"), "B"), (("A", "C"), "B"), (("B", "C"), "C"),
   (("B", "A"), "A"), (("C", "A"), "B")]

/-- A six-state table whose pair (A, D) is routed by the table through
X and Y (length 4) while the derived graph has two tied shorter routes
through B and through C (length 3).  Every other lookup is ERROR. -/
def exT5 : Table :=
  [(("A", "B"), "B"), (("A", "C"), "C"), (("A", "D"), "X"),
   (("B", "D"), "D"), (("C", "D"), "D"),
   (("X", "D"), "Y"), (("Y", "D"), "D"),
   (("A", "X"), "ERROR"), (("A", "Y"), "ERROR"),
   (("B", "A"), "ERROR"), (("B", "C"), "ERROR"), (("B", "X"), "ERROR"),
   (("B", "Y"), "ERROR"),
   (("C", "A"), "ERROR"), (("C", "B"), "ERROR"), (("C", "X"), "ERROR"),
   (("C", "Y"), "ERROR"),
   (("D", "A"), "ERROR"), (("D", "B"), "ERROR"), (("D", "C"), "ERROR"),
   (("D", "X"), "ERROR"), (("D", "Y"), "ERROR"),
   (("X", "A"), "ERROR"), (("X", "B"), "ERROR"), (("X", "C"), "ERROR"),
   (("X", "Y"), "ERROR"),
   (("Y", "A"), "ERROR"), (("Y", "B"), "ERROR"), (("Y", "C"), "ERROR"),
   (("Y", "X"), "ERROR")]

/-- The combination paths the analyzer records for exS8. -/
def cpS8 : List ((St × St) × List St) :=
  [(("A", "C"), ["A", "B", "C"]), (("C", "A"), ["C", "B", "A"])]

/-- The combination paths the analyzer records for exT5. -/
def cpT5 : List ((St × St) × List St) :=
  [(("A", "D"), ["A", "X", "Y", "D"]), (("X", "D"), ["X", "Y", "D"])]

theorem alookup_mem {α : Type} {p : St × St} {v : α} :
    ∀ {l : List ((St × St) × α)}, alookup l p = some v → (p, v) ∈ l := by
  intro l
  induction l with
  | nil => intro h; simp [alookup] at h
  | cons e l ih =>
    intro h
    simp only [alookup] at h
    split at h
    · rename_i he
      obtain ⟨rfl⟩ := Option.some_injective _ h
      cases e
      simp_all
    · exact List.mem_cons_of_mem _ (ih h)

theorem alookup_eq_none_of_forall {α : Type} {p : St × St} :
    ∀ {l : List ((St × St) × α)}, (∀ e ∈ l, e.1 ≠ p) → alookup l p = none := by
  intro l
  induction l with
  | nil => intro _; rfl
  | cons e l ih =>
    intro h
    simp only [alookup]
    rw [if_neg (h e (List.mem_cons_self e l))]
    exact ih (fun x hx => h x (List.mem_cons_of_mem _ hx))

theorem alookup_append_right {α : Type} {p : St × St} {l1 l2 : List ((St × St) × α)}
    (h : alookup l1 p = none) : alookup (l1 ++ l2) p = alookup l2 p := by
  induction l1 with
  | nil => rfl
  | cons e l1 ih =>
    simp only [alookup] at h ⊢
    split at h
    · exact absurd h (by simp)
    · rename_i he
      rw [if_neg he]
      exact ih h

theorem alookup_map_self_val {β : Type} {f : St × St → β} {p : St × St} {v : β} :
    ∀ {l : List (St × St)},
      alookup (l.map (fun k => (k, f k))) p = some v → v = f p := by
  intro l
  induction l with
  | nil => intro h; simp [alookup] at h
  | cons k l ih =>
    intro h
    simp only [List.map_cons, alookup] at h
    split at h
    · rename_i he
      injection h with h
      subst h
      exact congrArg f he
    · exact ih h

theorem alookup_map_self_mem {β : Type} {f : St × St → β} {p : St × St} :
    ∀ {l : List (St × St)}, p ∈ l →
      alookup (l.map (fun k => (k, f k))) p = some (f p) := by
  intro l
  induction l with
  | nil => intro h; simp at h
  | cons k l ih =>
    intro h
    simp only [List.map_cons, alookup]
    by_cases he : k = p
    · subst he; simp
    · rw [if_neg (by simpa using he)]
      rcases List.mem_cons.mp h with h | h
      · exact absurd h.symm he
      · exact ih h

theorem mem_all_states_of_alookup {t : Table} {a n v : St}
    (h : alookup t (a, n) = some v) : a ∈ all_states t := by
  have hm := alookup_mem h
  unfold all_states
  simp only [List.mem_toFinset, List.mem_map]
  exact ⟨((a, n), v), hm, rfl⟩

theorem exMapM_ok_mem {α β : Type} {f : α → Except AErr β} :
    ∀ {l : List α} {bs : List β}, exMapM f l = .ok bs →
      ∀ {a : α}, a ∈ l → ∃ b ∈ bs, f a = .ok b := by
  intro l
  induction l with
  | nil => intro bs _ a ha; simp at ha
  | cons x l ih =>
    intro bs h a ha
    simp only [exMapM] at h
    rcases hx : f x with e | b <;> rw [hx] at h
    · exact absurd h (by simp)
    · rcases hr : exMapM f l with e | bs' <;> rw [hr] at h
      · exact absurd h (by simp)
      · injection h with h
        subst h
        rcases List.mem_cons.mp ha with rfl | ha
        · exact ⟨b, List.mem_cons_self _ _, hx⟩
        · obtain ⟨b', hb', hfb'⟩ := ih hr ha
          exact ⟨b', List.mem_cons_of_mem _ hb', hfb'⟩

theorem exMapM_ok_mem_rev {α β : Type} {f : α → Except AErr β} :
    ∀ {l : List α} {bs : List β}, exMapM f l = .ok bs →
      ∀ {b : β}, b ∈ bs → ∃ a ∈ l, f a = .ok b := by
  intro l
  induction l with
  | nil =>
    intro bs h b hb
    simp only [exMapM] at h
    injection h with h
    subst h
    simp at hb
  | cons x l ih =>
    intro bs h b hb
    simp only [exMapM] at h
    rcases hx : f x with e | b' <;> rw [hx] at h
    · exact absurd h (by simp)
    · rcases hr : exMapM f l with e | bs' <;> rw [hr] at h
      · exact absurd h (by simp)
      · injection h with h
        subst h
        rcases List.mem_cons.mp hb with rfl | hb
        · exact ⟨x, List.mem_cons_self _ _, hx⟩
        · obtain ⟨a, ha, hfa⟩ := ih hr hb
          exact ⟨a, List.mem_cons_of_mem _ ha, hfa⟩

theorem exMapM_error_uniform {α β : Type} {f : α → Except AErr β} {a : α}
    (he : ∀ x, ∀ e, f x = .error e → e = AErr.incompleteTable) :
    ∀ {l : List α}, a ∈ l → (∃ e, f a = .error e) →
      exMapM f l = .error .incompleteTable := by
  intro l
  induction l with
  | nil => intro h; simp at h
  | cons x l ih =>
    intro ha ⟨e, hfa⟩
    simp only [exMapM]
    rcases hx : f x with e' | b
    · rw [he x e' hx]
    · rcases List.mem_cons.mp ha with rfl | ha
      · rw [hfa] at hx; exact absurd hx (by simp)
      · rw [ih ha ⟨e, hfa⟩]

theorem mem_of_getLast?_eq {α : Type} {l : List α} {x : α}
    (h : l.getLast? = some x) : x ∈ l := by
  obtain ⟨hne, rfl⟩ :=
    List.mem_getLast?_eq_getLast (l := l) (x := x) (by rw [h]; rfl)
  exact List.getLast_mem hne

theorem walkStep_ok_spec (t : Table) (n : St) :
    ∀ (fuel : Nat) (acc out : List St),
      walkStep t n fuel acc = .ok out →
      acc ≠ [] → "ERROR" ∉ acc → acc.Nodup → n ∉ acc →
      List.Chain' (fun a b => alookup t (b, n) = some a) acc →
      out.head? = acc.getLast? ∧ out.getLast? = some n ∧ "ERROR" ∉ out ∧
      out.Nodup ∧ List.Chain' (fun a b => alookup t (a, n) = some b) out := by
  intro fuel
  induction fuel with
  | zero => intro acc out h; simp [walkStep] at h
  | succ fuel ih =>
    intro acc out h hne herr hnd hn hch
    cases acc with
    | nil => exact absurd rfl hne
    | cons last rest =>
      simp only [walkStep] at h
      split at h
      · exact absurd h (by simp)
      · rename_i s hlk
        split at h
        · exact absurd h (by simp)
        · rename_i hblk
          push_neg at hblk
          obtain ⟨hsE, -⟩ := hblk
          split at h
          · rename_i hsn
            subst hsn
            injection h with h
            subst h
            refine ⟨?_, ?_, ?_, ?_, ?_⟩
            · rw [List.head?_reverse]
              exact List.getLast?_cons_cons
            · rw [List.getLast?_reverse]
              rfl
            · rw [List.mem_reverse]
              intro hmem
              rcases List.mem_cons.mp hmem with h' | h'
              · exact hsE h'.symm
              · exact herr h'
            · rw [List.nodup_reverse]
              exact List.Nodup.cons hn hnd
            · rw [List.chain'_reverse]
              exact List.chain'_cons.mpr ⟨hlk, hch⟩
          · rename_i hsn
            split at h
            · exact absurd h (by simp)
            · rename_i hsm
              have hrec := ih (s :: last :: rest) out h (by simp)
                (by
                  intro hc
                  rcases List.mem_cons.mp hc with h' | h'
                  · exact hsE h'.symm
                  · exact herr h')
                (List.Nodup.cons hsm hnd)
                (by
                  intro hc
                  rcases List.mem_cons.mp hc with h' | h'
                  · exact hsn h'.symm
                  · exact hn h')
                (List.chain'_cons.mpr ⟨hlk, hch⟩)
              obtain ⟨h1, h2, h3, h4, h5⟩ := hrec
              refine ⟨?_, h2, h3, h4, h5⟩
              rw [h1]
              exact List.getLast?_cons_cons

/-- Soundness of the per-pair resolution loop: a returned path starts at
`c`, ends at `n`, is exactly a chain of table lookups toward `n`, avoids
the ERROR sentinel, and has no repeated state. -/
theorem resolvePath_ok_spec (t : Table) (c n : St) (path : List St)
    (hcn : c ≠ n) (h : resolvePath t (c, n) = .ok path) :
    path.head? = some c ∧ path.getLast? = some n ∧ "ERROR" ∉ path ∧
    path.Nodup ∧ List.Chain' (fun a b => alookup t (a, n) = some b) path := by
  unfold resolvePath at h
  rw [if_neg hcn] at h
  by_cases hc : c = "ERROR"
  · subst hc
    exfalso
    rcases hlk : alookup t ("ERROR", n) with _ | s <;>
      simp [walkStep, hlk] at h
  · have := walkStep_ok_spec t n (t.length + 2) [c] path h (by simp)
      (by simpa using fun h' => hc h'.symm)
      (List.nodup_singleton c)
      (by simpa using fun h' => hcn h'.symm)
      (List.chain'_singleton c)
    simpa using this

theorem mem_all_state_pairs_iff {t : Table} {p : St × St} :
    p ∈ all_state_pairs t ↔
      p.1 ∈ all_states t ∧ p.2 ∈ all_states t ∧ p.1 ≠ p.2 := by
  unfold all_state_pairs
  simp only [Finset.mem_filter, Finset.mem_product]
  tauto

theorem mem_blocked_iff {t : Table} {p : St × St} :
    p ∈ blocked_transitions t ↔
      p ∈ all_state_pairs t ∧ alookup t p = some "ERROR" := by
  unfold blocked_transitions
  simp [Finset.mem_filter]

theorem mem_fsm_arcs_of_lookup {t : Table} {a n v : St}
    (hp : (a, n) ∈ all_state_pairs t) (hnb : (a, n) ∉ blocked_transitions t)
    (hlk : alookup t (a, n) = some v) : (a, v) ∈ fsm_arcs t := by
  unfold fsm_arcs
  simp only [Finset.mem_image, Finset.mem_filter]
  exact ⟨(a, n), ⟨hp, hnb⟩, by rw [hlk]; rfl⟩

theorem chain_table_to_arcs (t : Table) (n : St) (hn : n ∈ all_states t) :
    ∀ (p : List St), List.Chain' (fun a b => alookup t (a, n) = some b) p →
      p.Nodup → "ERROR" ∉ p → p.getLast? = some n →
      List.Chain' (fun a b => (a, b) ∈ fsm_arcs t) p := by
  intro p
  induction p with
  | nil => intro _ _ _ _; exact List.chain'_nil
  | cons a p ih =>
    intro hch hnd herr hlast
    cases p with
    | nil => exact List.chain'_singleton a
    | cons b p' =>
      obtain ⟨hab, hch'⟩ := List.chain'_cons.mp hch
      have hlast' : (b :: p').getLast? = some n := by
        rw [← List.getLast?_cons_cons (a := a)]
        exact hlast
      have hnmem : n ∈ b :: p' := mem_of_getLast?_eq hlast'
      have hanotin : a ∉ b :: p' := (List.nodup_cons.mp hnd).1
      have han : a ≠ n := fun h => hanotin (h ▸ hnmem)
      have hbE : b ≠ "ERROR" := by
        intro h
        exact herr (h ▸ List.mem_cons_of_mem _ (List.mem_cons_self b p'))
      have hpair : (a, n) ∈ all_state_pairs t :=
        mem_all_state_pairs_iff.mpr ⟨mem_all_states_of_alookup hab, hn, han⟩
      have hnb : (a, n) ∉ blocked_transitions t := by
        intro hb
        obtain ⟨-, hlk'⟩ := mem_blocked_iff.mp hb
        rw [hab] at hlk'
        injection hlk' with hlk'
        exact hbE hlk'
      refine List.chain'_cons.mpr ⟨mem_fsm_arcs_of_lookup hpair hnb hab, ?_⟩
      exact ih hch' (List.nodup_cons.mp hnd).2
        (fun h => herr (List.mem_cons_of_mem _ h)) hlast'


/-- C10: the conformance check computes extra = candidate − canonical and
missing = canonical − candidate over one-hop edge sets, and
extra ∪ missing = ∅ holds if and only if the candidate edge set equals the
canonical one-hop graph exactly; the check only produces these two sets. -/
theorem c10_conformance_iff (t : Table) (m : Finset (St × St)) :
    mlx5_extra_arcs t m ∪ mlx5_missing_arcs t m = ∅ ↔ m = fsm_arcs t := by
  unfold mlx5_extra_arcs mlx5_missing_arcs
  constructor
  · intro h
    obtain ⟨h1, h2⟩ := Finset.union_eq_empty.mp h
    exact Finset.Subset.antisymm (Finset.sdiff_eq_empty_iff_subset.mp h1)
      (Finset.sdiff_eq_empty_iff_subset.mp h2)
  · intro h
    subst h
    simp

/-- C2: membership in the derived one-hop graph is exactly the
deduplicated set of edges (c, table[c,n]) over non-blocked pairs (c, n) of
distinct states; the edge's destination is the table's value, not
necessarily the pair's own target. -/
theorem c2_one_hop_graph_spec (t : Table) (hc : complete t) (c v : St) :
    (c, v) ∈ fsm_arcs t ↔
      ∃ n, (c, n) ∈ all_state_pairs t ∧ (c, n) ∉ blocked_transitions t ∧
        alookup t (c, n) = some v := by
  constructor
  · intro h
    unfold fsm_arcs at h
    simp only [Finset.mem_image, Finset.mem_filter] at h
    obtain ⟨p, ⟨hp, hnb⟩, heq⟩ := h
    obtain ⟨c', n'⟩ := p
    obtain ⟨v', hv'⟩ := Option.isSome_iff_exists.mp (hc _ hp)
    rw [hv'] at heq
    simp only [Option.getD_some, Prod.mk.injEq] at heq
    obtain ⟨rfl, rfl⟩ := heq
    exact ⟨n', hp, hnb, hv'⟩
  · rintro ⟨n, hp, hnb, hlk⟩
    exact mem_fsm_arcs_of_lookup hp hnb hlk

theorem c2_one_hop_graph_spec_witness :
    complete exS8 ∧
    ((("C", "B") ∈ fsm_arcs exS8) ↔
      ∃ n, ("C", n) ∈ all_state_pairs exS8 ∧
        ("C", n) ∉ blocked_transitions exS8 ∧
        alookup exS8 ("C", n) = some "B") :=
  ⟨by decide, c2_one_hop_graph_spec exS8 (by decide) "C" "B"⟩

/-- C3: for a pair of distinct states the resolution loop repeatedly
appends table[last, n] starting from [c] until the last element equals n,
so a returned canonical path is precisely a chain of table lookups from c
to n; the loop's failure modes in `walkStep` are routingBlocked when ERROR
is appended (the assert at line 60, the spec's RoutingBlockedError) and
routingCycle when a state repeats (the source loop would then never
terminate; the spec's RoutingCycleError); consequently a returned
canonical path never contains ERROR nor a repeated state. -/
theorem c3_resolution_loop_sound (t : Table) (c n : St) (path : List St)
    (hcn : c ≠ n) (h : resolvePath t (c, n) = .ok path) :
    path.head? = some c ∧ path.getLast? = some n ∧
    List.Chain' (fun a b => alookup t (a, n) = some b) path ∧
    "ERROR" ∉ path ∧ path.Nodup := by
  obtain ⟨h1, h2, h3, h4, h5⟩ := resolvePath_ok_spec t c n path hcn h
  exact ⟨h1, h2, h5, h3, h4⟩

theorem c3_resolution_loop_sound_witness :
    (("A" : St) ≠ "C") ∧ resolvePath exS8 ("A", "C") = .ok ["A", "B", "C"] ∧
    ((["A", "B", "C"] : List St).head? = some "A" ∧
      (["A", "B", "C"] : List St).getLast? = some "C" ∧
      List.Chain' (fun a b => alookup exS8 (a, "C") = some b) ["A", "B", "C"] ∧
      "ERROR" ∉ (["A", "B", "C"] : List St) ∧ (["A", "B", "C"] : List St).Nodup) :=
  ⟨by decide, by decide,
    c3_resolution_loop_sound exS8 "A" "C" ["A", "B", "C"] (by decide) (by decide)⟩

/-- C1 counterexample: on the complete table exC1 the analyzer classifies
the pair (A, B) as direct (it is in the derived one-hop graph, contributed
by the pair (A, C)) although table[A,B] = C, where the spec's rule
"direct if table[c,n] = n, else combination" would classify it as
combination.  The spec's classification rule therefore does not match the
code's classification. -/
theorem c1_spec_rule_counterexample :
    ("A", "B") ∈ all_state_pairs exC1 ∧ complete exC1 ∧
    "A" ≠ "ERROR" ∧ "B" ≠ "ERROR" ∧
    alookup exC1 ("A", "B") = some "C" ∧
    classify exC1 ("A", "B") = Classification.direct ∧
    specClassify exC1 ("A", "B") = Classification.combination ∧
    classify exC1 ("A", "B") ≠ specClassify exC1 ("A", "B") := by
  decide

/-- C1 amended: for every pair of distinct states, the analyzer's
classification is blocked iff table[c,n] = ErrorState, direct iff the pair
is not blocked and the edge (c, n) is in the derived one-hop graph, and
combination otherwise — and exactly one of the three holds. -/
theorem c1_classification_trichotomy (t : Table) (p : St × St)
    (hp : p ∈ all_state_pairs t) :
    (classify t p = Classification.blocked ∨
      classify t p = Classification.direct ∨
      classify t p = Classification.combination) ∧
    (classify t p = Classification.blocked ↔ alookup t p = some "ERROR") ∧
    (classify t p = Classification.direct ↔
      (¬ alookup t p = some "ERROR" ∧ p ∈ fsm_arcs t)) ∧
    (classify t p = Classification.combination ↔
      (¬ alookup t p = some "ERROR" ∧ p ∉ fsm_arcs t)) := by
  have hbl : p ∈ blocked_transitions t ↔ alookup t p = some "ERROR" := by
    rw [mem_blocked_iff]
    exact ⟨fun h => h.2, fun h => ⟨hp, h⟩⟩
  unfold classify
  by_cases h1 : p ∈ blocked_transitions t
  · rw [if_pos h1]
    have := hbl.mp h1
    refine ⟨Or.inl rfl, by simp [this], by simp [this], by simp [this]⟩
  · rw [if_neg h1]
    have hne : ¬ alookup t p = some "ERROR" := fun h => h1 (hbl.mpr h)
    by_cases h2 : p ∈ fsm_arcs t
    · rw [if_pos h2]
      exact ⟨Or.inr (Or.inl rfl), by simp [hne], by simp [hne, h2], by simp [h2]⟩
    · rw [if_neg h2]
      exact ⟨Or.inr (Or.inr rfl), by simp [hne], by simp [h2], by simp [hne, h2]⟩

theorem c1_classification_trichotomy_witness :
    ("A", "C") ∈ all_state_pairs exS8 ∧
    ((classify exS8 ("A", "C") = Classification.combination ↔
      (¬ alookup exS8 ("A", "C") = some "ERROR" ∧
        ("A", "C") ∉ fsm_arcs exS8))) :=
  ⟨by decide, (c1_classification_trichotomy exS8 ("A", "C") (by decide)).2.2.2⟩

/-- C8: if any ordered pair of distinct non-error states known to the
table's state set has no table entry, the analysis fails with the
incomplete-table error before producing any derived artifact (in the
source the dict access at line 46 raises KeyError, and the assert at
lines 51-52 guards the same condition; the spec's IncompleteTableError). -/
theorem c8_incomplete_table_aborts (t : Table) (p : St × St)
    (hp : p ∈ all_state_pairs t) (_h1 : p.1 ≠ "ERROR") (_h2 : p.2 ≠ "ERROR")
    (hmiss : alookup t p = none) :
    analyze t = .error .incompleteTable := by
  have hbl : blockedE t = .error .incompleteTable := by
    unfold blockedE
    rw [exMapM_error_uniform
      (f := fun p => match alookup t p with
        | none => Except.error AErr.incompleteTable
        | some v => Except.ok (p, v))
      (a := p)
      (by
        intro x e hfx
        beta_reduce at hfx
        rcases hlk : alookup t x with _ | v <;> rw [hlk] at hfx
        · injection hfx with hfx
          exact hfx.symm
        · exact absurd hfx (by simp))
      (mem_sortedPairs.mpr hp)
      ⟨AErr.incompleteTable, by beta_reduce; rw [hmiss]⟩]
    rfl
  unfold analyze
  rw [hbl]
  rfl

theorem c8_incomplete_table_aborts_witness :
    ("C", "B") ∈ all_state_pairs exInc ∧ alookup exInc ("C", "B") = none ∧
    analyze exInc = .error .incompleteTable :=
  ⟨by decide, by decide,
    c8_incomplete_table_aborts exInc ("C", "B") (by decide) (by decide)
      (by decide) (by decide)⟩

/-- C9: a non-blocked pair that is itself an edge of the derived one-hop
graph — even when that edge was contributed by a different pair and
table[c,n] ≠ n — is not among the walked combination pairs and receives
the trivial canonical path [c, n] in the all-paths dict. -/
theorem c9_edge_pairs_get_trivial_path (t : Table) (p : St × St)
    (cp : List ((St × St) × List St))
    (_hp : p ∈ all_state_pairs t) (hnb : p ∉ blocked_transitions t)
    (harc : p ∈ fsm_arcs t)
    (hcp : combinationPathsE t (fsm_arcs t) (blocked_transitions t) = .ok cp) :
    p ∉ combination_pairs t ∧
    alookup (cp ++ directPathsList (fsm_arcs t) (blocked_transitions t)) p =
      some [p.1, p.2] := by
  have hnc : p ∉ combination_pairs t := by
    unfold combination_pairs
    simp only [Finset.mem_sdiff]
    intro hc
    exact hc.1.2 harc
  refine ⟨hnc, ?_⟩
  have hcpnone : alookup cp p = none := by
    apply alookup_eq_none_of_forall
    intro e he hkey
    obtain ⟨a, ha, hfa⟩ := exMapM_ok_mem_rev hcp he
    rcases hra : resolvePath t a with er | q <;> rw [hra] at hfa
    · exact absurd hfa (by simp [Except.map])
    · simp only [Except.map] at hfa
      injection hfa with hfa
      have hkeya : a = p := by rw [← hfa] at hkey; exact hkey
      rw [mem_sortedPairs] at ha
      rw [hkeya] at ha
      exact hnc ha
  rw [alookup_append_right hcpnone]
  unfold directPathsList
  apply alookup_map_self_mem
  rw [mem_sortedPairs, Finset.mem_sdiff]
  exact ⟨harc, hnb⟩

theorem c9_edge_pairs_get_trivial_path_witness :
    ("A", "B") ∈ all_state_pairs exC1 ∧ ("A", "B") ∈ fsm_arcs exC1 ∧
    alookup exC1 ("A", "B") = some "C" ∧
    (("A", "B") ∉ combination_pairs exC1 ∧
      alookup
        ([] ++ directPathsList (fsm_arcs exC1) (blocked_transitions exC1))
        ("A", "B") = some ["A", "B"]) :=
  ⟨by decide, by decide, by decide,
    c9_edge_pairs_get_trivial_path exC1 ("A", "B") [] (by decide) (by decide)
      (by decide) (by decide)⟩

/-- C7: the unwind study is a total map: for every recorded combination
path and every intermediate state of it, the study's output contains the
path's row, the row contains exactly the entry for that intermediate, and
that entry is the explicit unrecoverable marking precisely when the
all-paths dict has no canonical path from the intermediate back to the
path's origin (otherwise it is that canonical path); the computation is a
pure function and returns no error. -/
theorem c7_unwind_total (cp ap : List ((St × St) × List St)) (k : St × St)
    (path : List St) (err : St) (hk : (k, path) ∈ cp)
    (herr : err ∈ (path.drop 1).dropLast) :
    (path, ((path.drop 1).dropLast).map
        (fun e => (e, unwindLookup ap path.headI e))) ∈ unwindStudy cp ap ∧
    (err, unwindLookup ap path.headI err) ∈
      ((path.drop 1).dropLast).map (fun e => (e, unwindLookup ap path.headI e)) ∧
    (unwindLookup ap path.headI err = UnwindResult.unrecoverable ↔
      alookup ap (err, path.headI) = none) ∧
    (∀ q, unwindLookup ap path.headI err = UnwindResult.path q ↔
      alookup ap (err, path.headI) = some q) := by
  refine ⟨?_, ?_, ?_, ?_⟩
  · unfold unwindStudy
    exact List.mem_map.mpr ⟨(k, path), hk, rfl⟩
  · exact List.mem_map.mpr ⟨err, herr, rfl⟩
  · unfold unwindLookup
    rcases h : alookup ap (err, path.headI) with _ | q <;> simp
  · intro q
    unfold unwindLookup
    rcases h : alookup ap (err, path.headI) with _ | q' <;> simp

theorem head_getLast_cases {p : List St} {c n : St}
    (hh : p.head? = some c) (hl : p.getLast? = some n) :
    (p = [c] ∧ c = n) ∨
    (∃ b q, p = c :: b :: q ∧ (b :: q).getLast? = some n ∧ n ∈ b :: q) := by
  cases p with
  | nil => simp at hh
  | cons a q =>
    simp only [List.head?_cons, Option.some.injEq] at hh
    subst hh
    cases q with
    | nil =>
      left
      simp only [List.getLast?_singleton, Option.some.injEq] at hl
      exact ⟨rfl, hl⟩
    | cons b qt =>
      right
      have hl' : (b :: qt).getLast? = some n := by
        rw [← List.getLast?_cons_cons (a := a)]
        exact hl
      exact ⟨b, qt, rfl, hl', mem_of_getLast?_eq hl'⟩

theorem simplePathsAux_self (edges : List (St × St)) (n : St) (fuel : Nat)
    (visited : List St) : simplePathsAux edges n fuel n visited = [[n]] := by
  unfold simplePathsAux
  rw [if_pos rfl]

theorem simplePathsAux_mem (edges : List (St × St)) (n : St) :
    ∀ (fuel : Nat) (c : St) (visited : List St) (p : List St),
      c ∈ visited →
      (p ∈ simplePathsAux edges n fuel c visited ↔
        (p.head? = some c ∧ p.getLast? = some n ∧
         List.Chain' (fun a b => (a, b) ∈ edges) p ∧
         (∀ x ∈ p.tail, x ∉ visited) ∧ p.tail.Nodup ∧ p.length ≤ fuel + 1)) := by
  intro fuel
  induction fuel with
  | zero =>
    intro c visited p hcv
    by_cases hc : c = n
    · subst hc
      rw [simplePathsAux_self, List.mem_singleton]
      constructor
      · rintro rfl
        exact ⟨rfl, rfl, List.chain'_singleton c, by simp, by simp, by simp⟩
      · rintro ⟨hh, hl, -, hv, -, hlen⟩
        rcases head_getLast_cases hh hl with ⟨rfl, -⟩ | ⟨b, q, rfl, -, hnm⟩
        · rfl
        · exact absurd (hv c hnm) (by simp [hcv])
    · rw [simplePathsAux, if_neg hc]
      simp only [List.not_mem_nil, false_iff]
      rintro ⟨hh, hl, -, -, -, hlen⟩
      rcases head_getLast_cases hh hl with ⟨rfl, hcn⟩ | ⟨b, q, rfl, -, -⟩
      · exact hc hcn
      · simp at hlen
  | succ fuel ih =>
    intro c visited p hcv
    by_cases hc : c = n
    · subst hc
      rw [simplePathsAux_self, List.mem_singleton]
      constructor
      · rintro rfl
        exact ⟨rfl, rfl, List.chain'_singleton c, by simp, by simp, by simp⟩
      · rintro ⟨hh, hl, -, hv, -, -⟩
        rcases head_getLast_cases hh hl with ⟨rfl, -⟩ | ⟨b, q, rfl, -, hnm⟩
        · rfl
        · exact absurd (hv c hnm) (by simp [hcv])
    · rw [simplePathsAux, if_neg hc]
      simp only [List.mem_flatMap, List.mem_map, List.mem_filter]
      constructor
      · rintro ⟨e, ⟨hee, hef⟩, q, hq, rfl⟩
        obtain ⟨he1, he2⟩ := of_decide_eq_true hef
        obtain ⟨hqh, hql, hqch, hqv, hqnd, hqlen⟩ :=
          (ih e.2 (e.2 :: visited) q (List.mem_cons_self _ _)).mp hq
        cases q with
        | nil => exact absurd hqh (by simp)
        | cons b qt =>
          simp only [List.head?_cons, Option.some.injEq] at hqh
          subst hqh
          refine ⟨rfl, ?_, ?_, ?_, ?_, ?_⟩
          · rw [List.getLast?_cons_cons]
            exact hql
          · refine List.chain'_cons.mpr ⟨?_, hqch⟩
            have : (e.1, e.2) ∈ edges := by
              rw [Prod.mk.eta]
              exact hee
            rw [he1] at this
            exact this
          · intro x hx
            rcases List.mem_cons.mp hx with rfl | hx
            · exact he2
            · intro hxv
              exact hqv x hx (List.mem_cons_of_mem _ hxv)
          · refine List.nodup_cons.mpr ⟨?_, hqnd⟩
            intro hbq
            exact hqv e.2 hbq (List.mem_cons_self _ _)
          · simpa using Nat.succ_le_succ hqlen
      · rintro ⟨hh, hl, hch, hv, hnd, hlen⟩
        rcases head_getLast_cases hh hl with ⟨rfl, hcn⟩ | ⟨b, qt, rfl, hql, -⟩
        · exact absurd hcn hc
        · obtain ⟨hcb, hqch⟩ := List.chain'_cons.mp hch
          have hbv : b ∉ visited := hv b (List.mem_cons_self _ _)
          refine ⟨(c, b), ⟨hcb, decide_eq_true ⟨rfl, hbv⟩⟩, b :: qt, ?_, rfl⟩
          refine (ih b (b :: visited) (b :: qt) (List.mem_cons_self _ _)).mpr
            ⟨rfl, hql, hqch, ?_, ?_, ?_⟩
          · intro x hx
            simp only [List.tail_cons] at hx
            intro hxm
            rcases List.mem_cons.mp hxm with rfl | hxv
            · exact (List.nodup_cons.mp hnd).1 hx
            · exact hv x (List.mem_cons_of_mem _ hx) hxv
          · exact (List.nodup_cons.mp hnd).2
          · have hlen' : (c :: b :: qt).length ≤ fuel + 2 := hlen
            simpa using Nat.le_of_succ_le_succ hlen'

theorem nodesOf_mem_left {g : Finset (St × St)} {a b : St} (h : (a, b) ∈ g) :
    a ∈ nodesOf g := by
  unfold nodesOf
  rw [Finset.mem_union]
  exact Or.inl (Finset.mem_image.mpr ⟨(a, b), h, rfl⟩)

theorem nodesOf_mem_right {g : Finset (St × St)} {a b : St} (h : (a, b) ∈ g) :
    b ∈ nodesOf g := by
  unfold nodesOf
  rw [Finset.mem_union]
  exact Or.inr (Finset.mem_image.mpr ⟨(a, b), h, rfl⟩)

theorem walk_mem_nodes {g : Finset (St × St)} :
    ∀ {p : List St}, List.Chain' (fun a b => (a, b) ∈ g) p → 2 ≤ p.length →
      ∀ x ∈ p, x ∈ nodesOf g := by
  intro p
  induction p with
  | nil => intro _ h; simp at h
  | cons a q ih =>
    intro hch hlen x hx
    cases q with
    | nil => simp at hlen
    | cons b qt =>
      obtain ⟨hab, hch'⟩ := List.chain'_cons.mp hch
      rcases List.mem_cons.mp hx with rfl | hx
      · exact nodesOf_mem_left hab
      · cases qt with
        | nil =>
          rcases List.mem_cons.mp hx with rfl | hx
          · exact nodesOf_mem_right hab
          · simp at hx
        | cons d dt => exact ih hch' (by simp) x hx

theorem nodup_walk_length_le {g : Finset (St × St)} {p : List St}
    (hch : List.Chain' (fun a b => (a, b) ∈ g) p) (hnd : p.Nodup) :
    p.length ≤ (nodesOf g).card + 1 := by
  by_cases hlen : 2 ≤ p.length
  · have hsub : ∀ x ∈ p, x ∈ nodesOf g := walk_mem_nodes hch hlen
    calc p.length = p.toFinset.card := (List.toFinset_card_of_nodup hnd).symm
    _ ≤ (nodesOf g).card :=
      Finset.card_le_card (fun x hx => hsub x (List.mem_toFinset.mp hx))
    _ ≤ (nodesOf g).card + 1 := Nat.le_succ _
  · omega

theorem allSimplePaths_mem {g : Finset (St × St)} {c n : St} {p : List St} :
    p ∈ allSimplePaths g c n ↔ isWalkFromTo g p c n ∧ p.Nodup := by
  unfold allSimplePaths
  rw [simplePathsAux_mem (sortedPairs g) n ((nodesOf g).card + 1) c [c] p
    (List.mem_singleton.mpr rfl)]
  unfold isWalkFromTo
  constructor
  · rintro ⟨hh, hl, hch, hv, hnd, -⟩
    refine ⟨⟨hh, hl, hch.imp (fun a b h => mem_sortedPairs.mp h)⟩, ?_⟩
    cases p with
    | nil => simp at hh
    | cons a q =>
      simp only [List.head?_cons, Option.some.injEq] at hh
      subst hh
      refine List.nodup_cons.mpr ⟨?_, hnd⟩
      intro hcq
      exact hv a hcq (List.mem_singleton.mpr rfl)
  · rintro ⟨⟨hh, hl, hch⟩, hnd⟩
    have hchs : List.Chain' (fun a b => (a, b) ∈ sortedPairs g) p :=
      hch.imp (fun a b h => mem_sortedPairs.mpr h)
    refine ⟨hh, hl, hchs, ?_, ?_, ?_⟩
    · intro x hx hxm
      rw [List.mem_singleton] at hxm
      subst hxm
      cases p with
      | nil => simp at hh
      | cons a q =>
        simp only [List.head?_cons, Option.some.injEq] at hh
        subst hh
        exact (List.nodup_cons.mp hnd).1 hx
    · cases p with
      | nil => simp at hh
      | cons a q => exact (List.nodup_cons.mp hnd).2
    · exact Nat.le_succ_of_le (nodup_walk_length_le hch hnd)

theorem exists_dup_decomp {l : List St} (h : ¬ l.Nodup) :
    ∃ l1 x l2 l3, l = l1 ++ x :: (l2 ++ x :: l3) := by
  induction l with
  | nil => exact absurd List.nodup_nil h
  | cons a l ih =>
    by_cases ha : a ∈ l
    · obtain ⟨l2, l3, rfl⟩ := List.append_of_mem ha
      exact ⟨[], a, l2, l3, rfl⟩
    · have hl : ¬ l.Nodup := fun hnd => h (List.nodup_cons.mpr ⟨ha, hnd⟩)
      obtain ⟨l1, x, l2, l3, rfl⟩ := ih hl
      exact ⟨a :: l1, x, l2, l3, rfl⟩

theorem chain'_cut {R : St → St → Prop} {l1 l2 l3 : List St} {x : St}
    (h : List.Chain' R (l1 ++ x :: (l2 ++ x :: l3))) :
    List.Chain' R (l1 ++ x :: l3) := by
  have h1 : List.Chain' R (l1 ++ [x]) ∧ List.Chain' R (x :: (l2 ++ x :: l3)) :=
    List.chain'_split.mp h
  have hmid : List.Chain' R ((x :: l2) ++ x :: l3) := by simpa using h1.2
  have h2 : List.Chain' R ((x :: l2) ++ [x]) ∧ List.Chain' R (x :: l3) :=
    List.chain'_split.mp hmid
  exact List.chain'_split.mpr ⟨h1.1, h2.2⟩

theorem cut_head_eq {l1 l3 : List St} {x : St} (l2 : List St) :
    (l1 ++ x :: l3).head? = (l1 ++ x :: (l2 ++ x :: l3)).head? := by
  cases l1 <;> simp

theorem cut_getLast_eq {l1 l3 : List St} {x : St} (l2 : List St) :
    (l1 ++ x :: l3).getLast? = (l1 ++ x :: (l2 ++ x :: l3)).getLast? := by
  rw [List.getLast?_append_of_ne_nil l1 (by simp),
    List.getLast?_append_of_ne_nil l1 (by simp)]
  have he : x :: (l2 ++ x :: l3) = (x :: l2) ++ (x :: l3) := by simp
  rw [he, List.getLast?_append_of_ne_nil (x :: l2) (by simp)]

theorem walk_shorten_step {g : Finset (St × St)} {c n : St} {l1 l2 l3 : List St}
    {x : St} (hw : isWalkFromTo g (l1 ++ x :: (l2 ++ x :: l3)) c n) :
    isWalkFromTo g (l1 ++ x :: l3) c n ∧
      (l1 ++ x :: l3).length < (l1 ++ x :: (l2 ++ x :: l3)).length := by
  obtain ⟨hh, hl, hch⟩ := hw
  refine ⟨⟨?_, ?_, chain'_cut hch⟩, ?_⟩
  · rw [cut_head_eq l2]
    exact hh
  · rw [cut_getLast_eq l2]
    exact hl
  · simp only [List.length_append, List.length_cons]
    omega

theorem walk_shorten {g : Finset (St × St)} {c n : St} :
    ∀ (N : Nat) (q : List St), q.length ≤ N → isWalkFromTo g q c n →
      ∃ p, isWalkFromTo g p c n ∧ p.Nodup ∧ p.length ≤ q.length := by
  intro N
  induction N with
  | zero =>
    intro q hlq hw
    cases q with
    | nil => exact absurd hw.1 (by simp)
    | cons a l => simp at hlq
  | succ N ihN =>
    intro q hlq hw
    by_cases hnd : q.Nodup
    · exact ⟨q, hw, hnd, le_refl _⟩
    · obtain ⟨l1, x, l2, l3, rfl⟩ := exists_dup_decomp hnd
      obtain ⟨hw', hlt⟩ := walk_shorten_step hw
      obtain ⟨p, hp, hpnd, hpl⟩ := ihN (l1 ++ x :: l3) (by omega) hw'
      exact ⟨p, hp, hpnd, by omega⟩

theorem walk_to_simple {g : Finset (St × St)} {c n : St} {q : List St}
    (hw : isWalkFromTo g q c n) :
    ∃ p, isWalkFromTo g p c n ∧ p.Nodup ∧ p.length ≤ q.length :=
  walk_shorten q.length q (le_refl _) hw

theorem shortestPaths_mem {g : Finset (St × St)} {c n : St} {p : List St} :
    p ∈ shortestPaths g c n ↔ isShortestWalk g c n p := by
  unfold shortestPaths isShortestWalk
  rw [List.mem_filter]
  constructor
  · rintro ⟨hmem, hmin⟩
    obtain ⟨hw, hnd⟩ := allSimplePaths_mem.mp hmem
    refine ⟨hw, ?_⟩
    intro q hq
    obtain ⟨q', hq', hqnd', hql'⟩ := walk_to_simple hq
    have hq'mem : q' ∈ allSimplePaths g c n := allSimplePaths_mem.mpr ⟨hq', hqnd'⟩
    exact le_trans (of_decide_eq_true hmin q' hq'mem) hql'
  · rintro ⟨hw, hmin⟩
    have hnd : p.Nodup := by
      by_contra hnd
      obtain ⟨l1, x, l2, l3, rfl⟩ := exists_dup_decomp hnd
      obtain ⟨hw', hlt⟩ := walk_shorten_step hw
      have := hmin _ hw'
      omega
    refine ⟨allSimplePaths_mem.mpr ⟨hw, hnd⟩, decide_eq_true ?_⟩
    intro q hq
    exact hmin q (allSimplePaths_mem.mp hq).1

theorem nodup_flatMap_of_disjoint {α β : Type} {l : List α} {f : α → List β}
    (hl : l.Nodup) (hf : ∀ a ∈ l, (f a).Nodup)
    (hdisj : ∀ a ∈ l, ∀ b ∈ l, a ≠ b → ∀ x ∈ f a, x ∉ f b) :
    (l.flatMap f).Nodup := by
  induction l with
  | nil => simp
  | cons a l ih =>
    rw [List.flatMap_cons]
    obtain ⟨hal, hlnd⟩ := List.nodup_cons.mp hl
    refine List.Nodup.append (hf a (List.mem_cons_self _ _))
      (ih hlnd (fun b hb => hf b (List.mem_cons_of_mem _ hb))
        (fun b hb b' hb' hne => hdisj b (List.mem_cons_of_mem _ hb) b'
          (List.mem_cons_of_mem _ hb') hne)) ?_
    intro x hxa hxl
    obtain ⟨b, hb, hxb⟩ := List.mem_flatMap.mp hxl
    have hab : a ≠ b := fun h => hal (h ▸ hb)
    exact hdisj a (List.mem_cons_self _ _) b (List.mem_cons_of_mem _ hb) hab x hxa hxb

theorem simplePathsAux_nodup (edges : List (St × St)) (n : St)
    (hedges : edges.Nodup) :
    ∀ (fuel : Nat) (c : St) (visited : List St),
      (simplePathsAux edges n fuel c visited).Nodup := by
  intro fuel
  induction fuel with
  | zero =>
    intro c visited
    by_cases hc : c = n
    · subst hc
      rw [simplePathsAux_self]
      simp
    · rw [simplePathsAux, if_neg hc]
      exact List.nodup_nil
  | succ fuel ih =>
    intro c visited
    by_cases hc : c = n
    · subst hc
      rw [simplePathsAux_self]
      simp
    · rw [simplePathsAux, if_neg hc]
      apply nodup_flatMap_of_disjoint
      · exact List.Nodup.filter _ hedges
      · intro e he
        exact List.Nodup.map (fun q q' h => by injection h) (ih e.2 (e.2 :: visited))
      · intro e he e' he' hne x hx hx'
        obtain ⟨q, hq, rfl⟩ := List.mem_map.mp hx
        obtain ⟨q', hq', heq⟩ := List.mem_map.mp hx'
        injection heq with _ heq
        rw [heq] at hq'
        have h1 := ((simplePathsAux_mem edges n fuel e.2 (e.2 :: visited) q
          (List.mem_cons_self _ _)).mp hq).1
        have h2 := ((simplePathsAux_mem edges n fuel e'.2 (e'.2 :: visited) q
          (List.mem_cons_self _ _)).mp hq').1
        rw [h1] at h2
        injection h2 with h2
        obtain ⟨he1, -⟩ := of_decide_eq_true (List.mem_filter.mp he).2
        obtain ⟨he1', -⟩ := of_decide_eq_true (List.mem_filter.mp he').2
        apply hne
        have hfst : e.1 = e'.1 := by rw [he1, he1']
        obtain ⟨ea, eb⟩ := e
        obtain ⟨ea', eb'⟩ := e'
        simp only at hfst h2
        rw [hfst, h2]

theorem allSimplePaths_nodup (g : Finset (St × St)) (c n : St) :
    (allSimplePaths g c n).Nodup :=
  simplePathsAux_nodup (sortedPairs g) n (sortedPairs_nodup g) _ c [c]

theorem shortestPaths_nodup (g : Finset (St × St)) (c n : St) :
    (shortestPaths g c n).Nodup :=
  List.Nodup.filter _ (allSimplePaths_nodup g c n)

theorem shortestPaths_eq_singleton {g : Finset (St × St)} {c n : St}
    {q : List St} (h : ∀ r, isShortestWalk g c n r ↔ r = q) :
    shortestPaths g c n = [q] := by
  have hq : q ∈ shortestPaths g c n := shortestPaths_mem.mpr ((h q).mpr rfl)
  have hmem : ∀ r ∈ shortestPaths g c n, r = q :=
    fun r hr => (h r).mp (shortestPaths_mem.mp hr)
  have hnd := shortestPaths_nodup g c n
  cases hsp : shortestPaths g c n with
  | nil =>
    rw [hsp] at hq
    simp at hq
  | cons a l =>
    rw [hsp] at hmem hnd
    have ha : a = q := hmem a (List.mem_cons_self _ _)
    subst ha
    cases l with
    | nil => rfl
    | cons b l' =>
      have hb : b = a := hmem b (List.mem_cons_of_mem _ (List.mem_cons_self _ _))
      subst hb
      exact absurd (List.mem_cons_self b l')
        ((List.nodup_cons.mp hnd).1)

theorem singleton_shortest {g : Finset (St × St)} {c n : St} {q : List St}
    (h : shortestPaths g c n = [q]) :
    ∀ r, isShortestWalk g c n r ↔ r = q := by
  intro r
  constructor
  · intro hr
    have hm := shortestPaths_mem.mpr hr
    rw [h] at hm
    exact List.mem_singleton.mp hm
  · rintro rfl
    apply shortestPaths_mem.mp
    rw [h]
    exact List.mem_singleton.mpr rfl

theorem alookup_isSome_of_mem {α : Type} {p : St × St} :
    ∀ {l : List ((St × St) × α)} {e : (St × St) × α}, e ∈ l → e.1 = p →
      ∃ v, alookup l p = some v := by
  intro l
  induction l with
  | nil => intro e he; simp at he
  | cons x l ih =>
    intro e he hkey
    simp only [alookup]
    by_cases hx : x.1 = p
    · rw [if_pos hx]
      exact ⟨x.2, rfl⟩
    · rw [if_neg hx]
      rcases List.mem_cons.mp he with rfl | he
      · exact absurd hkey hx
      · exact ih he hkey

theorem alookup_append_left {α : Type} {p : St × St} {v : α}
    {l1 l2 : List ((St × St) × α)} (h : alookup l1 p = some v) :
    alookup (l1 ++ l2) p = some v := by
  induction l1 with
  | nil => simp [alookup] at h
  | cons e l1 ih =>
    simp only [List.cons_append, alookup] at h ⊢
    by_cases he : e.1 = p
    · rw [if_pos he] at h ⊢
      exact h
    · rw [if_neg he] at h ⊢
      exact ih h

theorem combinationPathsE_mem {t : Table} {arcs bl : Finset (St × St)}
    {cp : List ((St × St) × List St)}
    (hcp : combinationPathsE t arcs bl = .ok cp) :
    ∀ {k : St × St} {v : List St}, (k, v) ∈ cp →
      k ∈ (all_state_pairs t \ arcs) \ bl ∧ resolvePath t k = .ok v := by
  intro k v hkv
  obtain ⟨a, ha, hfa⟩ := exMapM_ok_mem_rev hcp hkv
  rcases hra : resolvePath t a with er | q <;> rw [hra] at hfa
  · exact absurd hfa (by simp [Except.map])
  · simp only [Except.map] at hfa
    injection hfa with hfa
    injection hfa with h1 h2
    subst h1
    subst h2
    exact ⟨mem_sortedPairs.mp ha, hra⟩

theorem combinationPathsE_key {t : Table} {arcs bl : Finset (St × St)}
    {cp : List ((St × St) × List St)}
    (hcp : combinationPathsE t arcs bl = .ok cp)
    {p : St × St} (hp : p ∈ (all_state_pairs t \ arcs) \ bl) :
    ∃ v, alookup cp p = some v := by
  obtain ⟨b, hb, hfb⟩ := exMapM_ok_mem hcp (mem_sortedPairs.mpr hp)
  rcases hra : resolvePath t p with er | q <;> rw [hra] at hfb
  · exact absurd hfb (by simp [Except.map])
  · simp only [Except.map] at hfb
    injection hfb with hfb
    exact alookup_isSome_of_mem hb (by rw [← hfb])

theorem directPaths_lookup_mem {arcs bl : Finset (St × St)} {p : St × St}
    {path : List St}
    (h : alookup (directPathsList arcs bl) p = some path) :
    p ∈ arcs \ bl ∧ path = [p.1, p.2] := by
  have hval := alookup_map_self_val h
  have hmem := alookup_mem h
  obtain ⟨k, hk, hkeq⟩ := List.mem_map.mp hmem
  injection hkeq with hk1 hk2
  subst hk1
  exact ⟨mem_sortedPairs.mp hk, hval⟩

theorem allPaths_lookup_cases {t : Table} {cp : List ((St × St) × List St)}
    (hcp : combinationPathsE t (fsm_arcs t) (blocked_transitions t) = .ok cp)
    {p : St × St} {path : List St}
    (hlook : alookup (cp ++ directPathsList (fsm_arcs t) (blocked_transitions t)) p
      = some path) :
    (resolvePath t p = .ok path ∧ p ∈ combination_pairs t) ∨
    (path = [p.1, p.2] ∧ p ∈ fsm_arcs t) := by
  rcases hc : alookup cp p with _ | v
  · rw [alookup_append_right hc] at hlook
    obtain ⟨hmem, hval⟩ := directPaths_lookup_mem hlook
    exact Or.inr ⟨hval, (Finset.mem_sdiff.mp hmem).1⟩
  · rw [alookup_append_left hc] at hlook
    injection hlook with hlook
    subst hlook
    obtain ⟨hmem, hres⟩ := combinationPathsE_mem hcp (alookup_mem hc)
    exact Or.inl ⟨hres, hmem⟩

theorem runChecker_ok_pair {g : Finset (St × St)}
    {ap cp : List ((St × St) × List St)} {ps : List (St × St)}
    {fs : List Finding} (h : runChecker g ap cp ps = .ok fs)
    {p : St × St} (hp : p ∈ ps) : ∃ r, checkPair g ap cp p = .ok r := by
  unfold runChecker at h
  rcases hm : exMapM (checkPair g ap cp) ps with e | rs <;> rw [hm] at h
  · exact absurd h (by simp [Except.map])
  · obtain ⟨r, -, hr⟩ := exMapM_ok_mem hm hp
    exact ⟨r, hr⟩

theorem checkPair_mismatch {g : Finset (St × St)}
    {ap cp : List ((St × St) × List St)} {p : St × St} {q : List St}
    (hs : shortestPaths g p.1 p.2 = [q]) (hne : ¬ alookup ap p = some q) :
    checkPair g ap cp p = .error .inconsistency := by
  unfold checkPair
  rw [hs]
  split
  · rename_i hcond
    simp at hcond
  · split
    · split
      · rename_i hcond
        rw [show ([q] : List (List St)).headI = q from rfl] at hcond
        exact absurd hcond hne
      · rfl
    · rename_i hcond
      exact absurd rfl hcond

theorem checkPair_ok_of_singleton {g : Finset (St × St)}
    {ap cp : List ((St × St) × List St)} {p : St × St} {q : List St}
    {r : Option Finding} (hs : shortestPaths g p.1 p.2 = [q])
    (h : checkPair g ap cp p = .ok r) : alookup ap p = some q := by
  by_cases hl : alookup ap p = some q
  · exact hl
  · exfalso
    rw [checkPair_mismatch hs hl] at h
    exact absurd h (by simp)

theorem checkPair_tie {g : Finset (St × St)}
    {ap cp : List ((St × St) × List St)} {p : St × St}
    (h2 : 2 ≤ (shortestPaths g p.1 p.2).length) :
    checkPair g ap cp p = .ok (some ⟨p, shortestPaths g p.1 p.2,
      (shortestPaths g p.1 p.2).filter
        (fun s => decide (alookup cp p = some s))⟩) := by
  unfold checkPair
  split
  · rename_i hcond
    exfalso
    cases hsp : shortestPaths g p.1 p.2 with
    | nil =>
      rw [hsp] at h2
      simp at h2
    | cons a l =>
      rw [hsp] at hcond
      simp at hcond
  · split
    · rename_i hcond
      exfalso
      omega
    · rfl

theorem walk_length_two {g : Finset (St × St)} {c n : St} {q : List St}
    (hw : isWalkFromTo g q c n) (hcn : c ≠ n) (hl : q.length ≤ 2) :
    q = [c, n] := by
  obtain ⟨hh, hlast, -⟩ := hw
  rcases head_getLast_cases hh hlast with ⟨rfl, h⟩ | ⟨b, qt, rfl, hql, -⟩
  · exact absurd h hcn
  · cases qt with
    | nil =>
      simp only [List.getLast?_singleton, Option.some.injEq] at hql
      rw [hql]
    | cons d dt => simp at hl

/-- C4: for a non-blocked pair whose set of minimum-length walks from c to
n in the one-hop graph is the singleton {q}: if the consistency checker
completes without error then q equals the canonical path recorded for the
pair in the all-paths dict, and if the canonical entry differs from q the
per-pair check fails with the inconsistency error (the assert at line 99,
the spec's RoutingInconsistencyError). -/
theorem c4_unique_shortest_matches_canonical (t : Table) (p : St × St)
    (q : List St) (cp : List ((St × St) × List St)) (fs : List Finding)
    (hp : p ∈ all_state_pairs t) (hnb : p ∉ blocked_transitions t)
    (huniq : ∀ r, isShortestWalk (fsm_arcs t) p.1 p.2 r ↔ r = q)
    (_hcp : combinationPathsE t (fsm_arcs t) (blocked_transitions t) = .ok cp) :
    (runChecker (fsm_arcs t)
        (cp ++ directPathsList (fsm_arcs t) (blocked_transitions t)) cp
        (sortedPairs (all_state_pairs t \ blocked_transitions t)) = .ok fs →
      alookup (cp ++ directPathsList (fsm_arcs t) (blocked_transitions t)) p
        = some q) ∧
    (¬ alookup (cp ++ directPathsList (fsm_arcs t) (blocked_transitions t)) p
        = some q →
      checkPair (fsm_arcs t)
        (cp ++ directPathsList (fsm_arcs t) (blocked_transitions t)) cp p
        = .error .inconsistency) := by
  have hs : shortestPaths (fsm_arcs t) p.1 p.2 = [q] :=
    shortestPaths_eq_singleton huniq
  constructor
  · intro hrun
    have hpmem : p ∈ sortedPairs (all_state_pairs t \ blocked_transitions t) :=
      mem_sortedPairs.mpr (Finset.mem_sdiff.mpr ⟨hp, hnb⟩)
    obtain ⟨r, hr⟩ := runChecker_ok_pair hrun hpmem
    exact checkPair_ok_of_singleton hs hr
  · intro hne
    exact checkPair_mismatch hs hne

theorem c4_unique_shortest_matches_canonical_witness :
    (("A", "C") ∈ all_state_pairs exS8) ∧
    (shortestPaths (fsm_arcs exS8) "A" "C" = [["A", "B", "C"]]) ∧
    (combinationPathsE exS8 (fsm_arcs exS8) (blocked_transitions exS8)
      = .ok cpS8) ∧
    ((runChecker (fsm_arcs exS8)
        (cpS8 ++ directPathsList (fsm_arcs exS8) (blocked_transitions exS8)) cpS8
        (sortedPairs (all_state_pairs exS8 \ blocked_transitions exS8)) = .ok [] →
      alookup (cpS8 ++ directPathsList (fsm_arcs exS8) (blocked_transitions exS8))
        ("A", "C") = some ["A", "B", "C"]) ∧
    (¬ alookup (cpS8 ++ directPathsList (fsm_arcs exS8) (blocked_transitions exS8))
        ("A", "C") = some ["A", "B", "C"] →
      checkPair (fsm_arcs exS8)
        (cpS8 ++ directPathsList (fsm_arcs exS8) (blocked_transitions exS8)) cpS8
        ("A", "C") = .error .inconsistency)) :=
  ⟨by decide, by decide, by decide,
    c4_unique_shortest_matches_canonical exS8 ("A", "C") ["A", "B", "C"] cpS8 []
      (by decide) (by decide) (singleton_shortest (by decide)) (by decide)⟩

/-- C5 (amended): for every non-blocked pair the canonical path recorded
in the all-paths dict is a walk from c to n in the derived one-hop graph;
it is additionally of minimum length among all such walks whenever the
pair's shortest-path set is a singleton and the consistency checker
completed without error.  Unconditional minimality — what the original
claim states — fails: see the counterexample, where a tie leaves a
non-minimal canonical path in a run that completes without error. -/
theorem c5_canonical_path_walk (t : Table) (p : St × St)
    (cp : List ((St × St) × List St)) (path q : List St)
    (fs : List Finding) (w : List St)
    (hp : p ∈ all_state_pairs t) (hnb : p ∉ blocked_transitions t)
    (hcp : combinationPathsE t (fsm_arcs t) (blocked_transitions t) = .ok cp)
    (hlook : alookup
      (cp ++ directPathsList (fsm_arcs t) (blocked_transitions t)) p
      = some path) :
    isWalkFromTo (fsm_arcs t) path p.1 p.2 ∧
    ((∀ r, isShortestWalk (fsm_arcs t) p.1 p.2 r ↔ r = q) →
      runChecker (fsm_arcs t)
        (cp ++ directPathsList (fsm_arcs t) (blocked_transitions t)) cp
        (sortedPairs (all_state_pairs t \ blocked_transitions t)) = .ok fs →
      isWalkFromTo (fsm_arcs t) w p.1 p.2 → path.length ≤ w.length) := by
  obtain ⟨h1, h2, h12⟩ := mem_all_state_pairs_iff.mp hp
  have hwalk : isWalkFromTo (fsm_arcs t) path p.1 p.2 := by
    rcases allPaths_lookup_cases hcp hlook with ⟨hres, -⟩ | ⟨hpath, harc⟩
    · obtain ⟨hh, hl, herr, hnd, hch⟩ := resolvePath_ok_spec t p.1 p.2 path h12 hres
      exact ⟨hh, hl, chain_table_to_arcs t p.2 h2 path hch hnd herr hl⟩
    · subst hpath
      refine ⟨rfl, by simp, ?_⟩
      rw [List.chain'_pair, Prod.mk.eta]
      exact harc
  refine ⟨hwalk, ?_⟩
  intro huniq hrun hww
  have hs : shortestPaths (fsm_arcs t) p.1 p.2 = [q] :=
    shortestPaths_eq_singleton huniq
  have hpmem : p ∈ sortedPairs (all_state_pairs t \ blocked_transitions t) :=
    mem_sortedPairs.mpr (Finset.mem_sdiff.mpr ⟨hp, hnb⟩)
  obtain ⟨r, hr⟩ := runChecker_ok_pair hrun hpmem
  have hcan := checkPair_ok_of_singleton hs hr
  rw [hlook] at hcan
  injection hcan with hcan
  subst hcan
  exact ((huniq path).mpr rfl).2 w hww

theorem c5_canonical_path_walk_witness :
    (("A", "C") ∈ all_state_pairs exS8) ∧
    (combinationPathsE exS8 (fsm_arcs exS8) (blocked_transitions exS8)
      = .ok cpS8) ∧
    (alookup (cpS8 ++ directPathsList (fsm_arcs exS8) (blocked_transitions exS8))
      ("A", "C") = some ["A", "B", "C"]) ∧
    isWalkFromTo (fsm_arcs exS8) ["A", "B", "C"] "A" "C" :=
  ⟨by decide, by decide, by decide,
    (c5_canonical_path_walk exS8 ("A", "C") cpS8 ["A", "B", "C"] [] [] []
      (by decide) (by decide) (by decide) (by decide)).1⟩

/-- C5 counterexample: on the complete table exT5 the analysis completes —
the resolution of every combination pair succeeds and the checker returns
with the tie for (A, D) reported as a finding and no error — yet the
canonical path [A, X, Y, D] recorded for the non-blocked pair (A, D) is
not of minimum length: [A, B, D] is a strictly shorter walk from A to D in
the derived one-hop graph. -/
theorem c5_minimality_counterexample :
    ("A", "D") ∈ all_state_pairs exT5 ∧
    ("A", "D") ∉ blocked_transitions exT5 ∧
    combinationPathsE exT5 (fsm_arcs exT5) (blocked_transitions exT5)
      = .ok cpT5 ∧
    alookup (cpT5 ++ directPathsList (fsm_arcs exT5) (blocked_transitions exT5))
      ("A", "D") = some ["A", "X", "Y", "D"] ∧
    runChecker (fsm_arcs exT5)
      (cpT5 ++ directPathsList (fsm_arcs exT5) (blocked_transitions exT5)) cpT5
      (sortedPairs (all_state_pairs exT5 \ blocked_transitions exT5)) =
      .ok [⟨("A", "D"), [["A", "B", "D"], ["A", "C", "D"]], []⟩] ∧
    isWalkFromTo (fsm_arcs exT5) ["A", "B", "D"] "A" "D" ∧
    (["A", "B", "D"] : List St).length <
      (["A", "X", "Y", "D"] : List St).length := by
  decide

/-- C6: for a non-blocked pair with two distinct minimum-length walks in
the one-hop graph, the per-pair check returns — without error — the
ambiguity finding carrying the full tied set (the reported list contains
exactly the minimum-length walks from c to n) together with the flagged
sublist marking exactly the tied paths that equal the pair's canonical
path; a tie therefore never aborts the analysis. -/
theorem c6_ambiguity_reported (t : Table) (p : St × St)
    (cp : List ((St × St) × List St)) (q r : List St)
    (hp : p ∈ all_state_pairs t) (hnb : p ∉ blocked_transitions t)
    (hcp : combinationPathsE t (fsm_arcs t) (blocked_transitions t) = .ok cp)
    (hq : isShortestWalk (fsm_arcs t) p.1 p.2 q)
    (hr : isShortestWalk (fsm_arcs t) p.1 p.2 r) (hne : q ≠ r) :
    checkPair (fsm_arcs t)
      (cp ++ directPathsList (fsm_arcs t) (blocked_transitions t)) cp p =
      .ok (some ⟨p, shortestPaths (fsm_arcs t) p.1 p.2,
        (shortestPaths (fsm_arcs t) p.1 p.2).filter
          (fun s => decide (alookup cp p = some s))⟩) ∧
    (∀ s, s ∈ shortestPaths (fsm_arcs t) p.1 p.2 ↔
      isShortestWalk (fsm_arcs t) p.1 p.2 s) ∧
    (∀ s, s ∈ (shortestPaths (fsm_arcs t) p.1 p.2).filter
        (fun s => decide (alookup cp p = some s)) ↔
      (isShortestWalk (fsm_arcs t) p.1 p.2 s ∧
        alookup (cp ++ directPathsList (fsm_arcs t) (blocked_transitions t)) p
          = some s)) := by
  obtain ⟨-, -, h12⟩ := mem_all_state_pairs_iff.mp hp
  have hqm : q ∈ shortestPaths (fsm_arcs t) p.1 p.2 := shortestPaths_mem.mpr hq
  have hrm : r ∈ shortestPaths (fsm_arcs t) p.1 p.2 := shortestPaths_mem.mpr hr
  have h2 : 2 ≤ (shortestPaths (fsm_arcs t) p.1 p.2).length := by
    cases hsp : shortestPaths (fsm_arcs t) p.1 p.2 with
    | nil =>
      rw [hsp] at hqm
      simp at hqm
    | cons a l =>
      cases l with
      | nil =>
        rw [hsp] at hqm hrm
        simp only [List.mem_singleton] at hqm hrm
        exact absurd (hqm.trans hrm.symm) hne
      | cons b l' => simp
  have hedge : p ∉ fsm_arcs t := by
    intro harc
    have hwalk0 : isWalkFromTo (fsm_arcs t) [p.1, p.2] p.1 p.2 := by
      refine ⟨rfl, by simp, ?_⟩
      rw [List.chain'_pair, Prod.mk.eta]
      exact harc
    have hq2 : q.length ≤ 2 := by simpa using hq.2 _ hwalk0
    have hr2 : r.length ≤ 2 := by simpa using hr.2 _ hwalk0
    have hqeq := walk_length_two hq.1 h12 hq2
    have hreq := walk_length_two hr.1 h12 hr2
    exact hne (hqeq.trans hreq.symm)
  have hcombm : p ∈ (all_state_pairs t \ fsm_arcs t) \ blocked_transitions t :=
    Finset.mem_sdiff.mpr ⟨Finset.mem_sdiff.mpr ⟨hp, hedge⟩, hnb⟩
  obtain ⟨v, hv⟩ := combinationPathsE_key hcp hcombm
  have happ : alookup
      (cp ++ directPathsList (fsm_arcs t) (blocked_transitions t)) p
      = alookup cp p := by
    rw [alookup_append_left hv, hv]
  refine ⟨checkPair_tie h2, fun s => shortestPaths_mem, ?_⟩
  intro s
  rw [List.mem_filter]
  constructor
  · rintro ⟨hmem, hflag⟩
    refine ⟨shortestPaths_mem.mp hmem, ?_⟩
    rw [happ]
    exact of_decide_eq_true hflag
  · rintro ⟨hsw, hlk⟩
    refine ⟨shortestPaths_mem.mpr hsw, decide_eq_true ?_⟩
    rw [← happ]
    exact hlk

theorem c6_ambiguity_reported_witness :
    (("A", "D") ∈ all_state_pairs exT5) ∧
    (["A", "B", "D"] : List St) ≠ ["A", "C", "D"] ∧
    checkPair (fsm_arcs exT5)
      (cpT5 ++ directPathsList (fsm_arcs exT5) (blocked_transitions exT5)) cpT5
      ("A", "D") =
      .ok (some ⟨("A", "D"), shortestPaths (fsm_arcs exT5) "A" "D",
        (shortestPaths (fsm_arcs exT5) "A" "D").filter
          (fun s => decide (alookup cpT5 ("A", "D") = some s))⟩) :=
  ⟨by decide, by decide,
    (c6_ambiguity_reported exT5 ("A", "D") cpT5 ["A", "B", "D"] ["A", "C", "D"]
      (by decide) (by decide) (by decide)
      (shortestPaths_mem.mp (by decide)) (shortestPaths_mem.mp (by decide))
      (by decide)).1⟩

theorem c7_unwind_total_witness :
    ((("A", "C"), (["A", "B", "C"] : List St)) ∈ cpS8) ∧
    ("B" ∈ ((["A", "B", "C"] : List St).drop 1).dropLast) ∧
    (((["A", "B", "C"] : List St),
      (((["A", "B", "C"] : List St).drop 1).dropLast).map
        (fun e => (e, unwindLookup
          (cpS8 ++ directPathsList (fsm_arcs exS8) (blocked_transitions exS8))
          (["A", "B", "C"] : List St).headI e))) ∈
      unwindStudy cpS8
        (cpS8 ++ directPathsList (fsm_arcs exS8) (blocked_transitions exS8))) ∧
    (unwindLookup
        (cpS8 ++ directPathsList (fsm_arcs exS8) (blocked_transitions exS8))
        (["A", "B", "C"] : List St).headI "B" = UnwindResult.unrecoverable ↔
      alookup (cpS8 ++ directPathsList (fsm_arcs exS8) (blocked_transitions exS8))
        ("B", (["A", "B", "C"] : List St).headI) = none) :=
  ⟨by decide, by decide,
    (c7_unwind_total cpS8
      (cpS8 ++ directPathsList (fsm_arcs exS8) (blocked_transitions exS8))
      ("A", "C") ["A", "B", "C"] "B" (by decide) (by decide)).1,
    (c7_unwind_total cpS8
      (cpS8 ++ directPathsList (fsm_arcs exS8) (blocked_transitions exS8))
      ("A", "C") ["A", "B", "C"] "B" (by decide) (by decide)).2.2.1⟩
